import Mathlib

/-!
Verification of the ray-casting geometry engine of `rhywbeth` (src/main.rs).

The source works on `f32`.  We use an idealised model of IEEE-754 scalars:
finite values are exact rationals (per-operation rounding is not modelled),
while the special values `+∞`, `-∞` and `NaN` — which the code relies on for
its vertical-line case split (`slope.is_infinite()`), and which arise from
the divisions in `from_points` and `intersects` — are modelled exactly,
including the IEEE rules that comparisons involving NaN are false and that
`x == x` is false for NaN.
-/

namespace Rhywbeth

/-- Idealised IEEE-754 scalar: an exact rational, a signed infinity
(`true` = positive), or NaN. -/
inductive F where
  | fin : ℚ → F
  | inf : Bool → F
  | nan : F
deriving DecidableEq

namespace F

/-- Model of `f32::is_infinite`. -/
def isInfinite : F → Bool
  | inf _ => true
  | _ => false

/-- IEEE negation. -/
def neg : F → F
  | fin q => fin (-q)
  | inf s => inf (!s)
  | nan => nan

/-- IEEE addition (exact on finite values; infinities of opposite sign give NaN). -/
def add : F → F → F
  | fin a, fin b => fin (a + b)
  | fin _, inf s => inf s
  | inf s, fin _ => inf s
  | inf s, inf t => if s = t then inf s else nan
  | nan, _ => nan
  | _, nan => nan

/-- IEEE subtraction. -/
def sub (a b : F) : F := add a (neg b)

/-- IEEE multiplication (zero times infinity is NaN). -/
def mul : F → F → F
  | fin a, fin b => fin (a * b)
  | fin a, inf s => if a = 0 then nan else if 0 < a then inf s else inf (!s)
  | inf s, fin a => if a = 0 then nan else if 0 < a then inf s else inf (!s)
  | inf s, inf t => inf (s == t)
  | nan, _ => nan
  | _, nan => nan

/-- IEEE division.  A zero denominator produced by the code is always the
difference of two equal finite values, hence `+0`; dividing a nonzero finite
value by it yields a signed infinity, and `0/0` yields NaN. -/
def div : F → F → F
  | fin a, fin b =>
      if b = 0 then (if a = 0 then nan else if 0 < a then inf true else inf false)
      else fin (a / b)
  | fin _, inf _ => fin 0
  | inf s, fin b => if 0 ≤ b then inf s else inf (!s)
  | inf _, inf _ => nan
  | nan, _ => nan
  | _, nan => nan

/-- IEEE `<` (false whenever an operand is NaN). -/
def lt : F → F → Bool
  | fin a, fin b => decide (a < b)
  | fin _, inf s => s
  | inf s, fin _ => !s
  | inf s, inf t => !s && t
  | nan, _ => false
  | _, nan => false

/-- IEEE `<=` (false whenever an operand is NaN). -/
def le : F → F → Bool
  | fin a, fin b => decide (a ≤ b)
  | fin _, inf s => s
  | inf s, fin _ => !s
  | inf s, inf t => !s || t
  | nan, _ => false
  | _, nan => false

/-- IEEE `==` (false whenever an operand is NaN). -/
def beq : F → F → Bool
  | fin a, fin b => a == b
  | inf s, inf t => s == t
  | _, _ => false

instance : Neg F := ⟨F.neg⟩
instance : Add F := ⟨F.add⟩
instance : Sub F := ⟨F.sub⟩
instance : Mul F := ⟨F.mul⟩
instance : Div F := ⟨F.div⟩

end F

/-- The crossterm colours used by the program. -/
inductive Colour where
  | black | magenta | green | white | yellow | blue | red
deriving DecidableEq

/-- `LineSegment` from src/main.rs (the Rust field `end` is spelled `end_`
here because `end` is a Lean keyword). -/
structure LineSegment where
  slope : F
  intercept : F
  start : F × F
  end_ : F × F
  colour : Colour

/-- `LineSegment::from_points`. -/
def LineSegment.from_points (start end_ : F × F) (colour : Colour) : LineSegment :=
  let slope := (end_.2 - start.2) / (end_.1 - start.1)
  { slope := slope
    intercept := -slope * start.1 + start.2
    start := start
    end_ := end_
    colour := colour }

/-- `LineSegment::find_y`. -/
def LineSegment.find_y (self : LineSegment) (x : F) : F :=
  self.slope * x + self.intercept

/-- The free function `between(x, a, b)`: membership of `x` in the closed
interval with (unordered) endpoints `a`, `b`, using IEEE comparisons. -/
def between (x a b : F) : Bool :=
  if F.lt a b then F.le a x && F.le x b
  else F.le b x && F.le x a

/-- `LineSegment::intersects`.  The source delegates the
vertical-`self` / non-vertical-`other` case to `other.intersects(self)`;
that recursion is bounded (the callee takes its first branch), which the
termination measure records. -/
def LineSegment.intersects (self other : LineSegment) : Option (F × F) :=
  if _ho : other.slope.isInfinite then
    if self.slope.isInfinite then
      if F.beq self.start.1 other.start.1 then
        some (self.start.1, F.fin 0) -- same line
      else
        none
    else if between other.start.1 self.start.1 self.end_.1 &&
            between (self.find_y other.start.1) other.start.2 other.end_.2 then
      some (other.start.1, self.find_y other.start.1)
    else
      none
  else if _hs : self.slope.isInfinite then
    other.intersects self
  else
    let intersection := (other.intercept - self.intercept) / (self.slope - other.slope)
    if between intersection self.start.1 self.end_.1 &&
       between intersection other.start.1 other.end_.1 then
      some (intersection, self.find_y intersection)
    else
      none
termination_by (if self.slope.isInfinite then 1 else 0)
decreasing_by simp_all

/-- Radicand of `get_distance` (the source returns
`((by - ay)^2 + (bx - ax)^2).sqrt()`).  The renderer only ever compares
distances, and the square root is strictly monotone on nonnegative reals,
so folding over radicands is observationally faithful; the claim about
Euclidean distance is stated through `Real.sqrt` of this value. -/
def get_distance_sq (point_a point_b : F × F) : F :=
  (point_b.2 - point_a.2) * (point_b.2 - point_a.2) +
    (point_b.1 - point_a.1) * (point_b.1 - point_a.1)

/-! The ray-casting projector (`render` in src/main.rs), split into its pure
pieces.  `LineSegment::ray` builds the probe segment from the column angle
with `tan`/`cos`/`sin`; those transcendental functions are outside the
rational model, so the projector is modelled in two stages: the per-column
angle computation (`d_theta`, `columnRays`) and the per-ray scan over the
wall list (`nearestHit`), which is parametric in the already-built ray. -/

/-- The `f32` constant `std::f32::consts::PI` — exactly this rational. -/
def PI : ℚ := 13176795 / 4194304

/-- Heading normalisation performed at the top of `render` (src/main.rs
lines 113–117): one conditional add or subtract of `2π`, not a modulo loop. -/
def normalize_rotation (rotation : ℚ) : ℚ :=
  if rotation < -PI then 2 * PI + rotation
  else if rotation > PI then rotation - 2 * PI
  else rotation

/-- `let d_theta = 0.5 * PI / size.0 as f32` (line 130). -/
def d_theta (W : ℕ) : ℚ := 0.5 * PI / (W : ℚ)

/-- The origin/angle pairs handed to `LineSegment::ray` by the column loop
(line 132): column `x` casts from `position` at angle `rotation - x * d_theta`. -/
def columnRays (W : ℕ) (position : F × F) (rotation : ℚ) : List ((F × F) × ℚ) :=
  (List.range W).map fun x : ℕ => (position, rotation - (x : ℚ) * d_theta W)

/-- The comparison `distance > Some(new_distance)` on `Option<f32>`
(derived `PartialOrd` on `Option`: `None` is below every `Some`, and
comparisons between `Some`s follow IEEE, so NaN makes them false). -/
def optGt : Option F → Option F → Bool
  | some a, some b => F.lt b a
  | some _, none => true
  | none, _ => false

/-- One iteration of the wall loop in `render` (lines 135–143): the
accumulator holds the current best `distance` (here its radicand) and
`colour`. -/
def scanSegment (position : F × F) (ray : LineSegment) (acc : Option F × Colour)
    (segment : LineSegment) : Option F × Colour :=
  match segment.intersects ray with
  | some point =>
      let new_distance := get_distance_sq position point
      if acc.1.isNone || optGt acc.1 (some new_distance) then
        (some new_distance, segment.colour)
      else acc
  | none => acc

/-- The whole wall loop of `render` for one ray: starts from
`distance = None`, `colour = Color::White` and scans every segment. -/
def nearestHit (position : F × F) (segments : List LineSegment) (ray : LineSegment) :
    Option F × Colour :=
  segments.foldl (scanSegment position ray) (none, Colour.white)

/-- The list of hits a ray scores against the wall list, each paired with the
radicand of its distance from the viewer and the wall's colour. -/
def hits (position : F × F) (segments : List LineSegment) (ray : LineSegment) :
    List (F × Colour) :=
  segments.filterMap fun s =>
    (s.intersects ray).map fun point => (get_distance_sq position point, s.colour)

/-- Rust `f32::round`: round half away from zero. -/
def rustRound (q : ℚ) : ℤ :=
  if 0 ≤ q then ⌊q + 1 / 2⌋ else -⌊-q + 1 / 2⌋

/-- Rust's saturating float-to-`u16` `as` cast: negative values (and NaN)
go to 0, values above `u16::MAX` go to 65535. -/
def satU16 (z : ℤ) : ℕ := (min (max z 0) 65535).toNat

/-- The distance-to-height projection of `render` (lines 144–149), for a hit
at `distance` and a viewport height `H` (a `u16`). -/
def height (distance : ℚ) (H : ℕ) : ℕ :=
  if distance > 5 then satU16 (rustRound ((H : ℚ) * (1 - (distance - 5) * 0.1)))
  else H

/-- `let padding = (size.1 - height) / 2` (line 151), in `u16` arithmetic;
`ℕ` subtraction stands in for it, and the no-underflow claim is stated as
`height ≤ H`. -/
def padding (distance : ℚ) (H : ℕ) : ℕ := (H - height distance H) / 2

/-! Computation lemmas for the float model. -/

namespace F

@[simp] lemma isInfinite_fin (q : ℚ) : (fin q).isInfinite = false := rfl

@[simp] lemma isInfinite_inf (s : Bool) : (inf s).isInfinite = true := rfl

@[simp] lemma isInfinite_nan : (nan).isInfinite = false := rfl

@[simp] lemma neg_fin (q : ℚ) : -(fin q) = fin (-q) := rfl

@[simp] lemma fin_add_fin (a b : ℚ) : fin a + fin b = fin (a + b) := rfl

@[simp] lemma fin_sub_fin (a b : ℚ) : fin a - fin b = fin (a - b) := by
  show add (fin a) (neg (fin b)) = fin (a - b)
  simp [add, neg, sub_eq_add_neg]

@[simp] lemma fin_mul_fin (a b : ℚ) : fin a * fin b = fin (a * b) := rfl

lemma fin_div_fin (a b : ℚ) (hb : b ≠ 0) : fin a / fin b = fin (a / b) := by
  show div (fin a) (fin b) = fin (a / b)
  simp [div, hb]

lemma fin_div_fin_zero (a : ℚ) :
    fin a / fin 0 = if a = 0 then nan else if 0 < a then inf true else inf false := by
  show div (fin a) (fin 0) = _
  simp [div]

@[simp] lemma lt_fin_fin (a b : ℚ) : lt (fin a) (fin b) = decide (a < b) := rfl

@[simp] lemma le_fin_fin (a b : ℚ) : le (fin a) (fin b) = decide (a ≤ b) := rfl

@[simp] lemma beq_fin_fin (a b : ℚ) : beq (fin a) (fin b) = (a == b) := rfl

@[simp] lemma le_nan_left (x : F) : le nan x = false := by cases x <;> rfl

@[simp] lemma le_nan_right (x : F) : le x nan = false := by cases x <;> rfl

@[simp] lemma lt_nan_left (x : F) : lt nan x = false := by cases x <;> rfl

@[simp] lemma lt_nan_right (x : F) : lt x nan = false := by cases x <;> rfl

@[simp] lemma le_fin_inf (a : ℚ) (s : Bool) : le (fin a) (inf s) = s := rfl

@[simp] lemma le_inf_fin (s : Bool) (a : ℚ) : le (inf s) (fin a) = !s := rfl

lemma mul_nan_left (x : F) : nan * x = nan := by
  show mul nan x = nan
  cases x <;> rfl

lemma mul_nan_right (x : F) : x * nan = nan := by
  show mul x nan = nan
  cases x <;> rfl

lemma add_nan_left (x : F) : nan + x = nan := by
  show add nan x = nan
  cases x <;> rfl

lemma add_nan_right (x : F) : x + nan = nan := by
  show add x nan = nan
  cases x <;> rfl

lemma neg_nan : -nan = nan := rfl

lemma sub_nan_left (x : F) : nan - x = nan := by
  show add nan (neg x) = nan
  exact add_nan_left _

lemma sub_nan_right (x : F) : x - nan = nan := by
  show add x (neg nan) = nan
  exact add_nan_right x

lemma div_nan_left (x : F) : nan / x = nan := by
  show div nan x = nan
  cases x <;> rfl

lemma div_nan_right (x : F) : x / nan = nan := by
  show div x nan = nan
  cases x <;> rfl

end F

/-- On NaN, `between` is always false (IEEE comparisons with NaN fail). -/
lemma between_nan_left (a b : F) : between F.nan a b = false := by
  unfold between
  split <;> simp

/-- A signed infinity never lies between two finite values. -/
lemma between_inf (s : Bool) (a b : ℚ) :
    between (F.inf s) (F.fin a) (F.fin b) = false := by
  unfold between
  split <;> cases s <;> simp

/-- On finite values, `between` is the order-independent closed-interval test. -/
lemma between_fin (x a b : ℚ) :
    between (F.fin x) (F.fin a) (F.fin b) = true ↔ min a b ≤ x ∧ x ≤ max a b := by
  unfold between
  rcases le_or_lt b a with hba | hab
  · have : ¬ a < b := not_lt.mpr hba
    simp [this, min_eq_right hba, max_eq_left hba, and_comm]
  · simp [hab, min_eq_left hab.le, max_eq_right hab.le]

/-- The `between` test does not depend on the order of the two endpoints. -/
lemma between_comm (x a b : F) : between x a b = between x b a := by
  cases a with
  | fin a =>
    cases b with
    | fin b =>
      unfold between
      rcases lt_trichotomy a b with h | h | h
      · simp [h, asymm h]
      · subst h; rfl
      · simp [h, asymm h]
    | inf s => unfold between; cases s <;> simp [F.lt]
    | nan => unfold between; simp
  | inf s =>
    cases b with
    | fin b => unfold between; cases s <;> simp [F.lt]
    | inf t => unfold between; cases s <;> cases t <;> simp [F.lt]
    | nan => unfold between; simp
  | nan =>
    unfold between
    simp

/-! Case-analysis lemmas for `intersects` (one unfolding each). -/

/-- Unfolding of `intersects` when the other segment is vertical. -/
lemma intersects_vertical_other (self other : LineSegment)
    (h : other.slope.isInfinite = true) :
    self.intersects other =
      if self.slope.isInfinite then
        (if F.beq self.start.1 other.start.1 then some (self.start.1, F.fin 0) else none)
      else if between other.start.1 self.start.1 self.end_.1 &&
              between (self.find_y other.start.1) other.start.2 other.end_.2 then
        some (other.start.1, self.find_y other.start.1)
      else none := by
  rw [LineSegment.intersects]
  simp [h]

/-- Unfolding of `intersects` in the delegating branch. -/
lemma intersects_swap (self other : LineSegment)
    (ho : other.slope.isInfinite = false) (hs : self.slope.isInfinite = true) :
    self.intersects other = other.intersects self := by
  rw [LineSegment.intersects]
  simp [ho, hs]

/-- Unfolding of `intersects` in the general (finite slopes) branch. -/
lemma intersects_general (self other : LineSegment)
    (ho : other.slope.isInfinite = false) (hs : self.slope.isInfinite = false) :
    self.intersects other =
      if between ((other.intercept - self.intercept) / (self.slope - other.slope))
            self.start.1 self.end_.1 &&
          between ((other.intercept - self.intercept) / (self.slope - other.slope))
            other.start.1 other.end_.1 then
        some ((other.intercept - self.intercept) / (self.slope - other.slope),
          self.find_y ((other.intercept - self.intercept) / (self.slope - other.slope)))
      else none := by
  rw [LineSegment.intersects]
  simp [ho, hs]

/-- Characterisation of an option produced by a guarded `some`: used to turn
the `between && between` guards of `intersects` into interval statements. -/
lemma guarded_some_characterisation {α : Type} (X : Option α) (v : α) (b1 b2 : Bool)
    (P1 P2 : Prop)
    (h : X = if (b1 && b2) = true then some v else none)
    (h1 : b1 = true ↔ P1) (h2 : b2 = true ↔ P2) :
    (X = some v ↔ P1 ∧ P2) ∧ (¬ (P1 ∧ P2) → X = none) := by
  cases b1 <;> cases b2 <;> simp_all

/-- Claim C1: for every pair of line segments `A`, `B` with finite slopes
(and intercepts, as produced for such segments), `A.intersects B` returns
`some (x, y)` with `x` the solution of
`A.slope * x + A.intercept = B.slope * x + B.intercept` and `y = A.find_y x`,
if and only if `x` lies in the closed x-interval between `A`'s endpoints and
in the closed x-interval between `B`'s endpoints (inclusive, independent of
the endpoint order); otherwise — in particular for parallel lines — it
returns `none`. -/
theorem c1_general_intersection (A B : LineSegment)
    (sa sb ia ib ax1 ax2 bx1 bx2 : ℚ)
    (hsa : A.slope = F.fin sa) (hsb : B.slope = F.fin sb)
    (hia : A.intercept = F.fin ia) (hib : B.intercept = F.fin ib)
    (hax1 : A.start.1 = F.fin ax1) (hax2 : A.end_.1 = F.fin ax2)
    (hbx1 : B.start.1 = F.fin bx1) (hbx2 : B.end_.1 = F.fin bx2) :
    (sa = sb → A.intersects B = none) ∧
    (sa ≠ sb →
      sa * ((ib - ia) / (sa - sb)) + ia = sb * ((ib - ia) / (sa - sb)) + ib ∧
      (A.intersects B =
          some (F.fin ((ib - ia) / (sa - sb)), A.find_y (F.fin ((ib - ia) / (sa - sb)))) ↔
        (min ax1 ax2 ≤ (ib - ia) / (sa - sb) ∧ (ib - ia) / (sa - sb) ≤ max ax1 ax2) ∧
        (min bx1 bx2 ≤ (ib - ia) / (sa - sb) ∧ (ib - ia) / (sa - sb) ≤ max bx1 bx2)) ∧
      (¬ ((min ax1 ax2 ≤ (ib - ia) / (sa - sb) ∧ (ib - ia) / (sa - sb) ≤ max ax1 ax2) ∧
          (min bx1 bx2 ≤ (ib - ia) / (sa - sb) ∧ (ib - ia) / (sa - sb) ≤ max bx1 bx2)) →
        A.intersects B = none)) := by
  have ho : B.slope.isInfinite = false := by rw [hsb]; rfl
  have hs : A.slope.isInfinite = false := by rw [hsa]; rfl
  have hgen := intersects_general A B ho hs
  rw [hsa, hsb, hia, hib, hax1, hax2, hbx1, hbx2, F.fin_sub_fin, F.fin_sub_fin] at hgen
  constructor
  · intro h
    rw [h, sub_self, F.fin_div_fin_zero] at hgen
    rcases eq_or_ne (ib - ia) 0 with h0 | h0
    · rw [if_pos h0] at hgen
      rw [hgen]
      simp [between_nan_left]
    · rw [if_neg h0] at hgen
      by_cases hpos : 0 < ib - ia
      · rw [if_pos hpos] at hgen
        rw [hgen]
        simp [between_inf]
      · rw [if_neg hpos] at hgen
        rw [hgen]
        simp [between_inf]
  · intro hne
    have hd : sa - sb ≠ 0 := sub_ne_zero.mpr hne
    rw [F.fin_div_fin _ _ hd] at hgen
    set x0 : ℚ := (ib - ia) / (sa - sb) with hx0
    refine ⟨by rw [hx0]; field_simp; ring, ?_, ?_⟩
    · cases hb1 : between (F.fin x0) (F.fin ax1) (F.fin ax2) <;>
        cases hb2 : between (F.fin x0) (F.fin bx1) (F.fin bx2) <;>
        rw [hb1, hb2] at hgen <;> simp at hgen <;> rw [hgen]
      · simp only [reduceCtorEq, false_iff]
        rintro ⟨p1, _⟩
        rw [(between_fin x0 ax1 ax2).mpr p1] at hb1
        exact Bool.noConfusion hb1
      · simp only [reduceCtorEq, false_iff]
        rintro ⟨p1, _⟩
        rw [(between_fin x0 ax1 ax2).mpr p1] at hb1
        exact Bool.noConfusion hb1
      · simp only [reduceCtorEq, false_iff]
        rintro ⟨_, p2⟩
        rw [(between_fin x0 bx1 bx2).mpr p2] at hb2
        exact Bool.noConfusion hb2
      · simp only [eq_self_iff_true, true_iff]
        exact ⟨(between_fin x0 ax1 ax2).mp hb1, (between_fin x0 bx1 bx2).mp hb2⟩
    · intro hnc
      cases hb1 : between (F.fin x0) (F.fin ax1) (F.fin ax2) <;>
        cases hb2 : between (F.fin x0) (F.fin bx1) (F.fin bx2) <;>
        rw [hb1, hb2] at hgen <;> simp at hgen
      · exact hgen
      · exact hgen
      · exact hgen
      · exact absurd ⟨(between_fin x0 ax1 ax2).mp hb1, (between_fin x0 bx1 bx2).mp hb2⟩ hnc

/-- Witness for C1: the diagonal (0,0)–(2,2) and the anti-diagonal
(0,2)–(2,0) intersect at (1,1). -/
theorem c1_general_intersection_witness :
    (LineSegment.from_points (F.fin 0, F.fin 0) (F.fin 2, F.fin 2) Colour.white).intersects
      (LineSegment.from_points (F.fin 0, F.fin 2) (F.fin 2, F.fin 0) Colour.red) =
    some (F.fin 1, F.fin 1) := by
  have h := c1_general_intersection
    (LineSegment.from_points (F.fin 0, F.fin 0) (F.fin 2, F.fin 2) Colour.white)
    (LineSegment.from_points (F.fin 0, F.fin 2) (F.fin 2, F.fin 0) Colour.red)
    1 (-1) 0 2 0 2 0 2
    (by norm_num [LineSegment.from_points, F.fin_div_fin])
    (by norm_num [LineSegment.from_points, F.fin_div_fin])
    (by norm_num [LineSegment.from_points, F.fin_div_fin])
    (by norm_num [LineSegment.from_points, F.fin_div_fin])
    rfl rfl rfl rfl
  have h2 := (h.2 (by norm_num)).2.1.mpr (by norm_num)
  rw [h2]
  norm_num [LineSegment.find_y, LineSegment.from_points, F.fin_div_fin]

/-- Claim C2: for a vertical `B` (infinite slope): if `A` is vertical too,
`A.intersects B` is `some (shared x, 0)` when the two `start` x-coordinates
agree and `none` otherwise; if `A` is not vertical, it is
`some (B.x, A.find_y B.x)` exactly when `B`'s x lies in `A`'s x-extent and
`A.find_y B.x` lies in `B`'s y-extent, and `none` otherwise. -/
theorem c2_vertical_intersection (A B : LineSegment)
    (hb : B.slope.isInfinite = true) :
    (∀ ax bx : ℚ, A.slope.isInfinite = true →
      A.start.1 = F.fin ax → B.start.1 = F.fin bx →
      (ax = bx → A.intersects B = some (F.fin ax, F.fin 0)) ∧
      (ax ≠ bx → A.intersects B = none)) ∧
    (∀ sa ia ax1 ax2 bx by1 by2 : ℚ, A.slope = F.fin sa → A.intercept = F.fin ia →
      A.start.1 = F.fin ax1 → A.end_.1 = F.fin ax2 →
      B.start.1 = F.fin bx → B.start.2 = F.fin by1 → B.end_.2 = F.fin by2 →
      (A.intersects B = some (F.fin bx, A.find_y (F.fin bx)) ↔
        (min ax1 ax2 ≤ bx ∧ bx ≤ max ax1 ax2) ∧
        (min by1 by2 ≤ sa * bx + ia ∧ sa * bx + ia ≤ max by1 by2)) ∧
      (¬ ((min ax1 ax2 ≤ bx ∧ bx ≤ max ax1 ax2) ∧
          (min by1 by2 ≤ sa * bx + ia ∧ sa * bx + ia ≤ max by1 by2)) →
        A.intersects B = none)) := by
  constructor
  · intro ax bx hA hax hbx
    have hv := intersects_vertical_other A B hb
    rw [hA, if_pos rfl, hax, hbx, F.beq_fin_fin] at hv
    constructor
    · intro he
      rw [hv]
      simp [he]
    · intro hne
      rw [hv]
      simp [hne]
  · intro sa ia ax1 ax2 bx by1 by2 hsa hia hax1 hax2 hbx hby1 hby2
    have hv := intersects_vertical_other A B hb
    have hA : A.slope.isInfinite = false := by rw [hsa]; rfl
    rw [hA, if_neg Bool.false_ne_true, hax1, hax2, hbx, hby1, hby2] at hv
    have hfy : A.find_y (F.fin bx) = F.fin (sa * bx + ia) := by
      unfold LineSegment.find_y
      rw [hsa, hia]
      simp
    rw [hfy] at hv
    have hres := guarded_some_characterisation _ _ _ _ _ _ hv
      (between_fin bx ax1 ax2) (between_fin (sa * bx + ia) by1 by2)
    rw [← hfy] at hres
    exact hres

/-- Witness for C2: the horizontal segment (0,3)–(4,3) meets the vertical
wall (2,1)–(2,5) at (2,3). -/
theorem c2_vertical_intersection_witness :
    (LineSegment.from_points (F.fin 0, F.fin 3) (F.fin 4, F.fin 3) Colour.white).intersects
      (LineSegment.from_points (F.fin 2, F.fin 1) (F.fin 2, F.fin 5) Colour.yellow) =
    some (F.fin 2, F.fin 3) := by
  have h := (c2_vertical_intersection
    (LineSegment.from_points (F.fin 0, F.fin 3) (F.fin 4, F.fin 3) Colour.white)
    (LineSegment.from_points (F.fin 2, F.fin 1) (F.fin 2, F.fin 5) Colour.yellow)
    (by norm_num [LineSegment.from_points, F.fin_div_fin_zero])).2
    0 3 0 4 2 1 5
    (by norm_num [LineSegment.from_points, F.fin_div_fin])
    (by norm_num [LineSegment.from_points, F.fin_div_fin])
    rfl rfl rfl rfl rfl
  have h2 := h.1.mpr (by norm_num)
  rw [h2]
  norm_num [LineSegment.find_y, LineSegment.from_points, F.fin_div_fin]

/-- Claim C7: when exactly one of `A`, `B` is vertical (infinite slope),
intersection is symmetric: `A.intersects B = B.intersects A`. -/
theorem c7_vertical_symmetry (A B : LineSegment)
    (h : A.slope.isInfinite = true ∧ B.slope.isInfinite = false ∨
         A.slope.isInfinite = false ∧ B.slope.isInfinite = true) :
    A.intersects B = B.intersects A := by
  rcases h with ⟨hA, hB⟩ | ⟨hA, hB⟩
  · exact intersects_swap A B hB hA
  · exact (intersects_swap B A hA hB).symm

/-- Witness for C7 at a vertical wall and a horizontal segment. -/
theorem c7_vertical_symmetry_witness :
    (LineSegment.from_points (F.fin 2, F.fin 1) (F.fin 2, F.fin 5) Colour.yellow).intersects
      (LineSegment.from_points (F.fin 0, F.fin 3) (F.fin 4, F.fin 3) Colour.white) =
    (LineSegment.from_points (F.fin 0, F.fin 3) (F.fin 4, F.fin 3) Colour.white).intersects
      (LineSegment.from_points (F.fin 2, F.fin 1) (F.fin 2, F.fin 5) Colour.yellow) :=
  c7_vertical_symmetry _ _
    (Or.inl ⟨by norm_num [LineSegment.from_points, F.fin_div_fin_zero],
      by norm_num [LineSegment.from_points, F.fin_div_fin]⟩)

/-! Helper lemmas for the height projection. -/

/-- Rounding a value at most `n` gives at most `n`. -/
lemma rustRound_le_nat (v : ℚ) (n : ℕ) (h : v ≤ n) : rustRound v ≤ (n : ℤ) := by
  unfold rustRound
  split_ifs with h0
  · have h1 : (⌊v + 1 / 2⌋ : ℚ) ≤ v + 1 / 2 := Int.floor_le _
    have h2 : (⌊v + 1 / 2⌋ : ℚ) < (n : ℚ) + 1 := by linarith
    exact_mod_cast Int.lt_add_one_iff.mp (by exact_mod_cast h2)
  · have h1 : (0 : ℤ) ≤ ⌊-v + 1 / 2⌋ := Int.floor_nonneg.mpr (by linarith)
    omega

/-- Rounding a nonnegative value gives a nonnegative integer. -/
lemma rustRound_nonneg (v : ℚ) (h : 0 ≤ v) : 0 ≤ rustRound v := by
  unfold rustRound
  rw [if_pos h]
  exact Int.floor_nonneg.mpr (by linarith)

/-- The saturating cast is `toNat ∘ max 0` when the value is within range. -/
lemma satU16_eq (z : ℤ) (hz : z ≤ 65535) : satU16 z = (max z 0).toNat := by
  unfold satU16
  rw [min_eq_left (max_le hz (by norm_num))]

/-- Claim C5 counterexample: the claim asserts the normalized heading lies in
(−π, π] for every input, but at input 10 the single wrap yields 10 − 2π,
which is still greater than π. -/
theorem c5_heading_counterexample :
    ¬ (-PI < normalize_rotation 10 ∧ normalize_rotation 10 ≤ PI) := by
  norm_num [normalize_rotation, PI]

/-- Claim C5 amended: the normalization step changes the heading by exactly
one of −2π, 0, +2π (so the result is congruent to the input modulo 2π), and
the result lies in (−π, π] if and only if the input lies in (−3π, 3π] and is
not exactly −π. -/
theorem c5_heading_amended (r : ℚ) :
    (normalize_rotation r = r + 2 * PI ∨ normalize_rotation r = r ∨
      normalize_rotation r = r - 2 * PI) ∧
    ((-PI < normalize_rotation r ∧ normalize_rotation r ≤ PI) ↔
      (-(3 * PI) < r ∧ r ≤ 3 * PI ∧ r ≠ -PI)) := by
  have hpi : (0 : ℚ) < PI := by norm_num [PI]
  unfold normalize_rotation
  split_ifs with h1 h2
  · refine ⟨Or.inl (add_comm _ _), ?_⟩
    constructor
    · rintro ⟨ha, _⟩
      exact ⟨by linarith, by linarith, ne_of_lt h1⟩
    · rintro ⟨ha, _, _⟩
      exact ⟨by linarith, by linarith⟩
  · refine ⟨Or.inr (Or.inr rfl), ?_⟩
    constructor
    · rintro ⟨_, hb⟩
      exact ⟨by linarith, by linarith, by intro he; rw [he] at h2; linarith⟩
    · rintro ⟨_, hb, _⟩
      exact ⟨by linarith, by linarith⟩
  · refine ⟨Or.inr (Or.inl rfl), ?_⟩
    push_neg at h1 h2
    constructor
    · rintro ⟨ha, hb⟩
      exact ⟨by linarith, by linarith, ne_of_gt ha⟩
    · rintro ⟨_, _, hc⟩
      exact ⟨lt_of_le_of_ne h1 (Ne.symm hc), h2⟩

/-- Claim C6: the angular step is `dθ = 0.5·π/W`, and the ray of column `x`
is cast from the viewer position at angle `heading − x·dθ`, with the angle
strictly decreasing from left to right. -/
theorem c6_column_rays (W : ℕ) (hW : 0 < W) (position : F × F) (rotation : ℚ) :
    d_theta W = 0.5 * PI / (W : ℚ) ∧
    (columnRays W position rotation).length = W ∧
    (∀ x : ℕ, ∀ hx : x < (columnRays W position rotation).length,
      (columnRays W position rotation).get ⟨x, hx⟩ =
        (position, rotation - (x : ℚ) * d_theta W)) ∧
    (∀ x : ℕ, ∀ hx : x + 1 < (columnRays W position rotation).length,
      ((columnRays W position rotation).get ⟨x + 1, hx⟩).2 <
        ((columnRays W position rotation).get ⟨x, by omega⟩).2) := by
  have hdt : 0 < d_theta W := by
    unfold d_theta
    apply div_pos
    · norm_num [PI]
    · exact_mod_cast hW
  have hget : ∀ x : ℕ, ∀ hx : x < (columnRays W position rotation).length,
      (columnRays W position rotation).get ⟨x, hx⟩ =
        (position, rotation - (x : ℚ) * d_theta W) := by
    intro x hx
    simp only [columnRays, List.get_eq_getElem, List.getElem_map, List.getElem_range]
  refine ⟨rfl, by simp only [columnRays, List.length_map, List.length_range], hget, ?_⟩
  intro x hx
  rw [hget _ hx, hget _ (by omega)]
  have hmul : (x : ℚ) * d_theta W < ((x : ℕ) + 1 : ℕ) * d_theta W := by
    apply mul_lt_mul_of_pos_right _ hdt
    exact_mod_cast Nat.lt_succ_self x
  push_cast at hmul ⊢
  linarith

/-- Witness for C6 at a four-column viewport. -/
theorem c6_column_rays_witness :
    (columnRays 4 (F.fin 0, F.fin 0) 0).length = 4 :=
  (c6_column_rays 4 (by norm_num) (F.fin 0, F.fin 0) 0).2.1

/-- Claim C4: with `H` a `u16` viewport height, the column height is `H` for
distance ≤ 5, and `round(H·(1 − (d − 5)·0.1))` floored at 0 for distance
> 5; in particular distances 4 and 5 give `H`, 10 gives `round(H·0.5)` and
15 gives 0. -/
theorem c4_distance_to_height (H : ℕ) (hH : H ≤ 65535) (d : ℚ) :
    (d ≤ 5 → height d H = H) ∧
    (5 < d → height d H = (max (rustRound ((H : ℚ) * (1 - (d - 5) * 0.1))) 0).toNat) ∧
    height 4 H = H ∧ height 5 H = H ∧
    height 10 H = (rustRound ((H : ℚ) * 0.5)).toNat ∧
    height 15 H = 0 := by
  have hle : ∀ e : ℚ, 0 ≤ e → (H : ℚ) * (1 - e) ≤ (H : ℚ) := by
    intro e he
    nlinarith [Nat.cast_nonneg (α := ℚ) H]
  have hb : ∀ dd : ℚ, 5 < dd →
      height dd H = (max (rustRound ((H : ℚ) * (1 - (dd - 5) * 0.1))) 0).toNat := by
    intro dd hdd
    unfold height
    rw [if_pos hdd]
    apply satU16_eq
    calc rustRound ((H : ℚ) * (1 - (dd - 5) * 0.1)) ≤ (H : ℤ) :=
          rustRound_le_nat _ _ (hle _ (by nlinarith))
      _ ≤ 65535 := by exact_mod_cast hH
  refine ⟨fun hd => by unfold height; rw [if_neg (not_lt.mpr hd)], hb d, ?_, ?_, ?_, ?_⟩
  · unfold height; rw [if_neg (by norm_num)]
  · unfold height; rw [if_neg (by norm_num)]
  · rw [hb 10 (by norm_num)]
    have h1 : (10 : ℚ) - 5 = 5 := by norm_num
    have h2 : (1 : ℚ) - 5 * 0.1 = 0.5 := by norm_num
    rw [h1, h2]
    rw [max_eq_left (rustRound_nonneg _ (by positivity))]
  · rw [hb 15 (by norm_num)]
    have h2 : (1 : ℚ) - (15 - 5) * 0.1 = 0 := by norm_num
    rw [h2, mul_zero]
    have : rustRound 0 = 0 := by
      unfold rustRound
      norm_num
    rw [this]
    rfl

/-- Witness for C4 at `H = 6`: distance 10 yields height 3. -/
theorem c4_distance_to_height_witness : height 10 6 = 3 := by
  have h := (c4_distance_to_height 6 (by norm_num) 0).2.2.2.2.1
  rw [h]
  rw [show (((6 : ℕ) : ℚ) * 0.5) = 3 from by norm_num]
  rw [show rustRound 3 = 3 from by
    unfold rustRound
    rw [if_pos (by norm_num)]
    exact Int.floor_eq_iff.mpr (by norm_num)]
  rfl

/-- Claim C10: for every hit distance `d ≥ 0` and `u16` viewport height `H`,
the computed column height never exceeds `H` (equal to `H` for `d ≤ 5`,
rounded value at most `H` for `d > 5`, negatives saturated to 0), so the
centering padding `(H − height)/2` never underflows in unsigned
arithmetic. -/
theorem c10_no_underflow (H : ℕ) (hH : H ≤ 65535) (d : ℚ) (hd : 0 ≤ d) :
    height d H ≤ H ∧
    (d ≤ 5 → height d H = H) ∧
    (5 < d → rustRound ((H : ℚ) * (1 - (d - 5) * 0.1)) ≤ (H : ℤ)) ∧
    0 ≤ (H : ℤ) - (height d H : ℤ) := by
  have hround : 5 < d → rustRound ((H : ℚ) * (1 - (d - 5) * 0.1)) ≤ (H : ℤ) := by
    intro h5
    apply rustRound_le_nat
    have hfac : (0 : ℚ) ≤ (d - 5) * 0.1 := by nlinarith
    have hm : 0 ≤ (H : ℚ) * ((d - 5) * 0.1) := mul_nonneg (Nat.cast_nonneg H) hfac
    nlinarith
  have hht : height d H ≤ H := by
    unfold height
    split_ifs with h
    · unfold satU16
      rw [Int.toNat_le]
      calc min (max (rustRound ((H : ℚ) * (1 - (d - 5) * 0.1))) 0) 65535
          ≤ max (rustRound ((H : ℚ) * (1 - (d - 5) * 0.1))) 0 := min_le_left _ _
        _ ≤ (H : ℤ) := max_le (hround h) (Int.ofNat_nonneg H)
    · exact le_refl H
  exact ⟨hht, fun hd5 => by unfold height; rw [if_neg (not_lt.mpr hd5)], hround,
    by omega⟩

/-- Witness for C10 at `H = 6`, `d = 12`: the column height 1 stays below 6. -/
theorem c10_no_underflow_witness :
    height 12 6 ≤ 6 ∧ 0 ≤ (6 : ℤ) - (height 12 6 : ℤ) := by
  have h := c10_no_underflow 6 (by norm_num) 12 (by norm_num)
  exact ⟨h.1, h.2.2.2⟩

/-! Field computations for `from_points`, and invariance of `intersects`
under swapping a segment's two endpoints. -/

/-- Slope computed by `from_points` for a non-vertical pair of points. -/
lemma from_points_slope_fin (x1 y1 x2 y2 : ℚ) (c : Colour) (h : x1 ≠ x2) :
    (LineSegment.from_points (F.fin x1, F.fin y1) (F.fin x2, F.fin y2) c).slope =
      F.fin ((y2 - y1) / (x2 - x1)) := by
  show (F.fin y2 - F.fin y1) / (F.fin x2 - F.fin x1) = _
  rw [F.fin_sub_fin, F.fin_sub_fin, F.fin_div_fin _ _ (sub_ne_zero.mpr (Ne.symm h))]

/-- Intercept computed by `from_points` for a non-vertical pair of points. -/
lemma from_points_intercept_fin (x1 y1 x2 y2 : ℚ) (c : Colour) (h : x1 ≠ x2) :
    (LineSegment.from_points (F.fin x1, F.fin y1) (F.fin x2, F.fin y2) c).intercept =
      F.fin (-((y2 - y1) / (x2 - x1)) * x1 + y1) := by
  show -((F.fin y2 - F.fin y1) / (F.fin x2 - F.fin x1)) * F.fin x1 + F.fin y1 = _
  rw [F.fin_sub_fin, F.fin_sub_fin, F.fin_div_fin _ _ (sub_ne_zero.mpr (Ne.symm h)),
    F.neg_fin, F.fin_mul_fin, F.fin_add_fin]

/-- Slope computed by `from_points` for a vertical pair of distinct points:
a signed infinity (`0/…` never occurs since the y-difference is nonzero). -/
lemma from_points_slope_vertical (x y1 y2 : ℚ) (c : Colour) (h : y1 ≠ y2) :
    (LineSegment.from_points (F.fin x, F.fin y1) (F.fin x, F.fin y2) c).slope =
      F.inf (decide (0 < y2 - y1)) := by
  show (F.fin y2 - F.fin y1) / (F.fin x - F.fin x) = _
  rw [F.fin_sub_fin, F.fin_sub_fin, sub_self, F.fin_div_fin_zero,
    if_neg (sub_ne_zero.mpr (Ne.symm h))]
  by_cases hp : 0 < y2 - y1
  · rw [if_pos hp]
    simp [hp]
  · rw [if_neg hp]
    simp [hp]

/-- Swapping the endpoint fields of a non-vertical segment (keeping the
derived slope and intercept) does not change `intersects`, in either
argument order. -/
lemma intersects_congr_swap (S S' R : LineSegment)
    (hs : S.slope.isInfinite = false)
    (hslope : S'.slope = S.slope) (hint : S'.intercept = S.intercept)
    (hstart : S'.start = S.end_) (hend : S'.end_ = S.start) :
    S.intersects R = S'.intersects R ∧ R.intersects S = R.intersects S' := by
  have hs' : S'.slope.isInfinite = false := by rw [hslope]; exact hs
  have hfy : ∀ x, S'.find_y x = S.find_y x := by
    intro x
    unfold LineSegment.find_y
    rw [hslope, hint]
  have h1 : S.intersects R = S'.intersects R := by
    cases hR : R.slope.isInfinite
    · rw [intersects_general S R hR hs, intersects_general S' R hR hs',
        hslope, hint, hstart, hend, hfy,
        between_comm ((R.intercept - S.intercept) / (S.slope - R.slope)) S.end_.1 S.start.1]
    · rw [intersects_vertical_other S R hR, intersects_vertical_other S' R hR,
        hs, hs', if_neg Bool.false_ne_true, if_neg Bool.false_ne_true,
        hfy, hstart, hend, between_comm R.start.1 S.end_.1 S.start.1]
  have h2 : R.intersects S = R.intersects S' := by
    cases hR : R.slope.isInfinite
    · rw [intersects_general R S hs hR, intersects_general R S' hs' hR,
        hslope, hint, hstart, hend,
        between_comm ((S.intercept - R.intercept) / (R.slope - S.slope)) S.end_.1 S.start.1]
    · rw [intersects_swap R S hs hR, intersects_swap R S' hs' hR]
      exact h1
  exact ⟨h1, h2⟩

/-- Swapping the endpoint fields of a vertical segment does not change
`intersects` either: only the start x (shared for a vertical segment) and
the unordered y-extent are consulted. -/
lemma intersects_congr_swap_vertical (S S' R : LineSegment)
    (hs : S.slope.isInfinite = true) (hs' : S'.slope.isInfinite = true)
    (hx1 : S'.start.1 = S.start.1)
    (hstart2 : S'.start.2 = S.end_.2) (hend2 : S'.end_.2 = S.start.2) :
    S.intersects R = S'.intersects R ∧ R.intersects S = R.intersects S' := by
  have h2 : R.intersects S = R.intersects S' := by
    cases hR : R.slope.isInfinite
    · rw [intersects_vertical_other R S hs, intersects_vertical_other R S' hs',
        hR, if_neg Bool.false_ne_true, if_neg Bool.false_ne_true,
        hx1, hstart2, hend2, between_comm (R.find_y S.start.1) S.end_.2 S.start.2]
    · rw [intersects_vertical_other R S hs, intersects_vertical_other R S' hs',
        hR, if_pos rfl, if_pos rfl, hx1]
  have h1 : S.intersects R = S'.intersects R := by
    cases hR : R.slope.isInfinite
    · rw [intersects_swap S R hR hs, intersects_swap S' R hR hs']
      exact h2
    · rw [intersects_vertical_other S R hR, intersects_vertical_other S' R hR,
        hs, hs', if_pos rfl, if_pos rfl, hx1]
  exact ⟨h1, h2⟩

/-- Claim C8: a segment built by `from_points (a, b)` and one built by
`from_points (b, a)` (same colour) have identical intersection behaviour
against every segment `R`, in both argument orders. -/
theorem c8_endpoint_order (ax ay bx by2 : ℚ) (c : Colour) (R : LineSegment)
    (hne : (ax, ay) ≠ (bx, by2)) :
    (LineSegment.from_points (F.fin ax, F.fin ay) (F.fin bx, F.fin by2) c).intersects R =
      (LineSegment.from_points (F.fin bx, F.fin by2) (F.fin ax, F.fin ay) c).intersects R ∧
    R.intersects (LineSegment.from_points (F.fin ax, F.fin ay) (F.fin bx, F.fin by2) c) =
      R.intersects (LineSegment.from_points (F.fin bx, F.fin by2) (F.fin ax, F.fin ay) c) := by
  rcases eq_or_ne ax bx with hx | hx
  · subst hx
    have hay : ay ≠ by2 := by
      intro h
      exact hne (by rw [h])
    apply intersects_congr_swap_vertical
    · rw [from_points_slope_vertical ax ay by2 c hay]
      rfl
    · rw [from_points_slope_vertical ax by2 ay c (Ne.symm hay)]
      rfl
    · rfl
    · rfl
    · rfl
  · have h1 := from_points_slope_fin ax ay bx by2 c hx
    have h2 := from_points_slope_fin bx by2 ax ay c (Ne.symm hx)
    have hq : (ay - by2) / (ax - bx) = (by2 - ay) / (bx - ax) := by
      rw [show ay - by2 = -(by2 - ay) from by ring, show ax - bx = -(bx - ax) from by ring,
        neg_div_neg_eq]
    have hslope : (LineSegment.from_points (F.fin bx, F.fin by2) (F.fin ax, F.fin ay) c).slope =
        (LineSegment.from_points (F.fin ax, F.fin ay) (F.fin bx, F.fin by2) c).slope := by
      rw [h1, h2, hq]
    have hint : (LineSegment.from_points (F.fin bx, F.fin by2) (F.fin ax, F.fin ay) c).intercept =
        (LineSegment.from_points (F.fin ax, F.fin ay) (F.fin bx, F.fin by2) c).intercept := by
      rw [from_points_intercept_fin ax ay bx by2 c hx,
        from_points_intercept_fin bx by2 ax ay c (Ne.symm hx), hq]
      congr 1
      have hd : bx - ax ≠ 0 := sub_ne_zero.mpr (Ne.symm hx)
      field_simp
      ring
    apply intersects_congr_swap
    · rw [h1]
      rfl
    · exact hslope
    · exact hint
    · rfl
    · rfl

/-- Witness for C8: the wall (6,1)–(4,3) and its endpoint-swapped twin hit
the same segment identically. -/
theorem c8_endpoint_order_witness :
    (LineSegment.from_points (F.fin 6, F.fin 1) (F.fin 4, F.fin 3) Colour.black).intersects
        (LineSegment.from_points (F.fin 0, F.fin 0) (F.fin 8, F.fin 4) Colour.white) =
      (LineSegment.from_points (F.fin 4, F.fin 3) (F.fin 6, F.fin 1) Colour.black).intersects
        (LineSegment.from_points (F.fin 0, F.fin 0) (F.fin 8, F.fin 4) Colour.white) :=
  (c8_endpoint_order 6 1 4 3 Colour.black
    (LineSegment.from_points (F.fin 0, F.fin 0) (F.fin 8, F.fin 4) Colour.white)
    (by norm_num)).1

/-- Claim C9: the geometry is total and well-defined on degenerate inputs.
A zero-length segment (whose slope is the NaN `0/0`, hence non-vertical for
the case split) intersects nothing, in either argument order; coincident
finite-slope lines give a defined `none` (the `0/0` solve yields NaN, which
fails `between`); and coincident vertical lines return the explicit
degenerate-case sentinel `some (shared x, 0)`.  No division aborts: the
model's `div`, like IEEE `f32` division, is total, and the vertical case is
dispatched by the `is_infinite` test rather than exception handling. -/
theorem c9_totality (p : ℚ × ℚ) (c : Colour) (R : LineSegment) :
    ((LineSegment.from_points (F.fin p.1, F.fin p.2) (F.fin p.1, F.fin p.2) c).intersects R
        = none ∧
      R.intersects (LineSegment.from_points (F.fin p.1, F.fin p.2) (F.fin p.1, F.fin p.2) c)
        = none) ∧
    (∀ A B : LineSegment, ∀ s i : ℚ, A.slope = F.fin s → B.slope = F.fin s →
      A.intercept = F.fin i → B.intercept = F.fin i → A.intersects B = none) ∧
    (∀ A B : LineSegment, ∀ x : ℚ, A.slope.isInfinite = true → B.slope.isInfinite = true →
      A.start.1 = F.fin x → B.start.1 = F.fin x →
      A.intersects B = some (F.fin x, F.fin 0)) := by
  set Z := LineSegment.from_points (F.fin p.1, F.fin p.2) (F.fin p.1, F.fin p.2) c with hZ
  have hzs : Z.slope = F.nan := by
    show (F.fin p.2 - F.fin p.2) / (F.fin p.1 - F.fin p.1) = F.nan
    rw [F.fin_sub_fin, F.fin_sub_fin, sub_self, sub_self, F.fin_div_fin_zero, if_pos rfl]
  have hzsi : Z.slope.isInfinite = false := by rw [hzs]; rfl
  have hzi : Z.intercept = F.nan := by
    show -((F.fin p.2 - F.fin p.2) / (F.fin p.1 - F.fin p.1)) * F.fin p.1 + F.fin p.2 = F.nan
    rw [F.fin_sub_fin, F.fin_sub_fin, sub_self, sub_self, F.fin_div_fin_zero, if_pos rfl,
      F.neg_nan, F.mul_nan_left, F.add_nan_left]
  have hzy : ∀ x, Z.find_y x = F.nan := by
    intro x
    unfold LineSegment.find_y
    rw [hzs, F.mul_nan_left, F.add_nan_left]
  have hZR : Z.intersects R = none := by
    cases hR : R.slope.isInfinite
    · rw [intersects_general Z R hR hzsi, hzi, F.sub_nan_right, F.div_nan_left]
      simp [between_nan_left]
    · rw [intersects_vertical_other Z R hR, hzsi, if_neg Bool.false_ne_true, hzy]
      simp [between_nan_left]
  have hRZ : R.intersects Z = none := by
    cases hR : R.slope.isInfinite
    · rw [intersects_general R Z hzsi hR, hzi, F.sub_nan_left, F.div_nan_left]
      simp [between_nan_left]
    · rw [intersects_swap R Z hzsi hR]
      exact hZR
  refine ⟨⟨hZR, hRZ⟩, ?_, ?_⟩
  · intro A B s i hsa hsb hia hib
    have ha : A.slope.isInfinite = false := by rw [hsa]; rfl
    have hb : B.slope.isInfinite = false := by rw [hsb]; rfl
    rw [intersects_general A B hb ha, hia, hib, hsa, hsb, F.fin_sub_fin, F.fin_sub_fin,
      sub_self, sub_self, F.fin_div_fin_zero, if_pos rfl]
    simp [between_nan_left]
  · intro A B x hA hB hax hbx
    rw [intersects_vertical_other A B hB, hA, if_pos rfl, hax, hbx, F.beq_fin_fin]
    simp

/-- Witness for C9: a zero-length segment at (1,2) scores no intersection
against the first wall of the hardcoded world. -/
theorem c9_totality_witness :
    (LineSegment.from_points (F.fin 1, F.fin 2) (F.fin 1, F.fin 2) Colour.white).intersects
      (LineSegment.from_points (F.fin 6, F.fin 1) (F.fin 4, F.fin 3) Colour.black) = none :=
  (c9_totality (1, 2) Colour.white
    (LineSegment.from_points (F.fin 6, F.fin 1) (F.fin 4, F.fin 3) Colour.black)).1.1

/-! Lemmas about the wall-scanning fold of `render`. -/

/-- A wall that misses the ray leaves the loop state unchanged. -/
lemma scanSegment_miss (position : F × F) (ray : LineSegment) (acc : Option F × Colour)
    (s : LineSegment) (h : s.intersects ray = none) :
    scanSegment position ray acc s = acc := by
  unfold scanSegment
  rw [h]

/-- The first hit always replaces an empty loop state. -/
lemma scanSegment_first (position : F × F) (ray : LineSegment) (c : Colour)
    (s : LineSegment) (pt : F × F) (h : s.intersects ray = some pt) :
    scanSegment position ray (none, c) s = (some (get_distance_sq position pt), s.colour) := by
  unfold scanSegment
  rw [h]
  simp

/-- A strictly closer hit replaces the current best. -/
lemma scanSegment_replace (position : F × F) (ray : LineSegment) (q qd : ℚ) (c : Colour)
    (s : LineSegment) (pt : F × F) (h : s.intersects ray = some pt)
    (hd : get_distance_sq position pt = F.fin qd) (hlt : qd < q) :
    scanSegment position ray (some (F.fin q), c) s = (some (F.fin qd), s.colour) := by
  unfold scanSegment
  rw [h]
  simp [hd, optGt, hlt]

/-- A hit that is not strictly closer is discarded (ties keep the earlier
wall). -/
lemma scanSegment_keep (position : F × F) (ray : LineSegment) (q qd : ℚ) (c : Colour)
    (s : LineSegment) (pt : F × F) (h : s.intersects ray = some pt)
    (hd : get_distance_sq position pt = F.fin qd) (hge : ¬ qd < q) :
    scanSegment position ray (some (F.fin q), c) s = (some (F.fin q), c) := by
  unfold scanSegment
  rw [h]
  simp [hd, optGt, hge]

/-- A missing wall contributes no hit. -/
lemma hits_cons_miss (position : F × F) (l : List LineSegment) (ray s : LineSegment)
    (h : s.intersects ray = none) :
    hits position (s :: l) ray = hits position l ray := by
  simp [hits, List.filterMap_cons, h]

/-- A hitting wall contributes its distance and colour. -/
lemma hits_cons_hit (position : F × F) (l : List LineSegment) (ray s : LineSegment)
    (pt : F × F) (h : s.intersects ray = some pt) :
    hits position (s :: l) ray =
      (get_distance_sq position pt, s.colour) :: hits position l ray := by
  simp [hits, List.filterMap_cons, h]

/-- Invariant of the wall loop once the state holds a (finite) best
distance: the loop computes the minimum of the state and all remaining
hits, taking the colour of the first wall attaining it. -/
lemma nearestHit_go (position : F × F) (ray : LineSegment) :
    ∀ (l : List LineSegment) (q : ℚ) (c : Colour),
      (∀ h ∈ hits position l ray, ∃ r : ℚ, h.1 = F.fin r) →
      ∃ q0 c0,
        List.foldl (scanSegment position ray) (some (F.fin q), c) l = (some (F.fin q0), c0) ∧
        ((q0 = q ∧ c0 = c) ∨ (F.fin q0, c0) ∈ hits position l ray) ∧
        q0 ≤ q ∧
        (∀ h ∈ hits position l ray, ∀ r : ℚ, h.1 = F.fin r → q0 ≤ r) := by
  intro l
  induction l with
  | nil =>
    intro q c _
    exact ⟨q, c, rfl, Or.inl ⟨rfl, rfl⟩, le_refl q, by simp [hits]⟩
  | cons s l ih =>
    intro q c hf
    cases hint : s.intersects ray with
    | none =>
      rw [List.foldl_cons, scanSegment_miss position ray _ s hint]
      rw [hits_cons_miss position l ray s hint] at hf ⊢
      exact ih q c hf
    | some pt =>
      have hmem0 : (get_distance_sq position pt, s.colour) ∈ hits position (s :: l) ray := by
        rw [hits_cons_hit position l ray s pt hint]
        exact List.mem_cons_self _ _
      obtain ⟨qd, hqd⟩ := hf _ hmem0
      simp only at hqd
      have hft : ∀ h ∈ hits position l ray, ∃ r : ℚ, h.1 = F.fin r := by
        intro h hm
        exact hf h (by rw [hits_cons_hit position l ray s pt hint]; exact List.mem_cons_of_mem _ hm)
      rw [hits_cons_hit position l ray s pt hint]
      by_cases hlt : qd < q
      · rw [List.foldl_cons, scanSegment_replace position ray q qd c s pt hint hqd hlt]
        obtain ⟨q0, c0, heq, hmem, hle, hall⟩ := ih qd s.colour hft
        refine ⟨q0, c0, heq, ?_, le_trans hle hlt.le, ?_⟩
        · rcases hmem with ⟨h1, h2⟩ | hm
          · exact Or.inr (by rw [h1, h2, ← hqd]; exact List.mem_cons_self _ _)
          · exact Or.inr (List.mem_cons_of_mem _ hm)
        · intro h hm r hr
          rcases List.mem_cons.mp hm with he | hm'
          · rw [he] at hr
            simp only at hr
            rw [hqd] at hr
            cases hr
            exact hle
          · exact hall h hm' r hr
      · rw [List.foldl_cons, scanSegment_keep position ray q qd c s pt hint hqd hlt]
        obtain ⟨q0, c0, heq, hmem, hle, hall⟩ := ih q c hft
        refine ⟨q0, c0, heq, ?_, hle, ?_⟩
        · rcases hmem with hacc | hm
          · exact Or.inl hacc
          · exact Or.inr (List.mem_cons_of_mem _ hm)
        · intro h hm r hr
          rcases List.mem_cons.mp hm with he | hm'
          · rw [he] at hr
            simp only at hr
            rw [hqd] at hr
            cases hr
            exact le_trans hle (not_lt.mp hlt)
          · exact hall h hm' r hr

/-- The wall loop starting from the empty state: if some wall hits, the
result is the first minimal hit. -/
lemma nearestHit_start (position : F × F) (ray : LineSegment) :
    ∀ l : List LineSegment,
      (∀ h ∈ hits position l ray, ∃ r : ℚ, h.1 = F.fin r) →
      hits position l ray ≠ [] →
      ∃ q0 c0,
        List.foldl (scanSegment position ray) (none, Colour.white) l = (some (F.fin q0), c0) ∧
        (F.fin q0, c0) ∈ hits position l ray ∧
        (∀ h ∈ hits position l ray, ∀ r : ℚ, h.1 = F.fin r → q0 ≤ r) := by
  intro l
  induction l with
  | nil =>
    intro _ hne
    exact absurd (by simp [hits]) hne
  | cons s l ih =>
    intro hf hne
    cases hint : s.intersects ray with
    | none =>
      rw [List.foldl_cons, scanSegment_miss position ray _ s hint]
      rw [hits_cons_miss position l ray s hint] at hf hne ⊢
      exact ih hf hne
    | some pt =>
      have hmem0 : (get_distance_sq position pt, s.colour) ∈ hits position (s :: l) ray := by
        rw [hits_cons_hit position l ray s pt hint]
        exact List.mem_cons_self _ _
      obtain ⟨qd, hqd⟩ := hf _ hmem0
      simp only at hqd
      have hft : ∀ h ∈ hits position l ray, ∃ r : ℚ, h.1 = F.fin r := by
        intro h hm
        exact hf h (by rw [hits_cons_hit position l ray s pt hint]; exact List.mem_cons_of_mem _ hm)
      rw [List.foldl_cons, scanSegment_first position ray Colour.white s pt hint, hqd]
      rw [hits_cons_hit position l ray s pt hint]
      obtain ⟨q0, c0, heq, hmem, hle, hall⟩ := nearestHit_go position ray l qd s.colour hft
      refine ⟨q0, c0, heq, ?_, ?_⟩
      · rcases hmem with ⟨h1, h2⟩ | hm
        · exact (by rw [h1, h2, ← hqd]; exact List.mem_cons_self _ _)
        · exact List.mem_cons_of_mem _ hm
      · intro h hm r hr
        rcases List.mem_cons.mp hm with he | hm'
        · rw [he] at hr
          simp only at hr
          rw [hqd] at hr
          cases hr
          exact hle
        · exact hall h hm' r hr

/-- Claim C3: per column, among all wall segments whose intersection with
the column's ray is a hit, the loop reports the hit whose Euclidean
distance from the viewer is smallest together with that wall's colour; when
no wall intersects the ray, the column stays empty (`None` distance). -/
theorem c3_nearest_hit (position : F × F) (segments : List LineSegment) (ray : LineSegment)
    (hfin : ∀ h ∈ hits position segments ray, ∃ q : ℚ, h.1 = F.fin q) :
    (hits position segments ray = [] ↔ ∀ s ∈ segments, s.intersects ray = none) ∧
    (hits position segments ray = [] →
      nearestHit position segments ray = (none, Colour.white)) ∧
    (hits position segments ray ≠ [] →
      ∃ q : ℚ, ∃ c : Colour,
        nearestHit position segments ray = (some (F.fin q), c) ∧
        (F.fin q, c) ∈ hits position segments ray ∧
        ∀ h ∈ hits position segments ray, ∀ q' : ℚ, h.1 = F.fin q' →
          Real.sqrt ((q : ℚ) : ℝ) ≤ Real.sqrt ((q' : ℚ) : ℝ)) := by
  refine ⟨?_, ?_, ?_⟩
  · simp [hits, List.filterMap_eq_nil_iff]
  · intro hnil
    have hall : ∀ s ∈ segments, s.intersects ray = none := by
      revert hnil
      simp [hits, List.filterMap_eq_nil_iff]
    unfold nearestHit
    induction segments with
    | nil => rfl
    | cons s l ih =>
      rw [List.foldl_cons, scanSegment_miss position ray _ s (hall s (List.mem_cons_self _ _))]
      exact ih (by rw [← hits_cons_miss position l ray s (hall s (List.mem_cons_self _ _))]; exact hfin)
        (by rw [← hits_cons_miss position l ray s (hall s (List.mem_cons_self _ _))]; exact hnil)
        (fun s' hm => hall s' (List.mem_cons_of_mem _ hm))
  · intro hne
    obtain ⟨q0, c0, heq, hmem, hall⟩ := nearestHit_start position ray segments hfin hne
    refine ⟨q0, c0, heq, hmem, ?_⟩
    intro h hm q' hq'
    exact Real.sqrt_le_sqrt (by exact_mod_cast hall h hm q' hq')

/-- Witness for C3: a single wall in front of the viewer is reported with
its (squared) distance and colour. -/
theorem c3_nearest_hit_witness :
    nearestHit (F.fin 0, F.fin 0)
      [LineSegment.from_points (F.fin 0, F.fin 2) (F.fin 2, F.fin 0) Colour.green]
      (LineSegment.from_points (F.fin 0, F.fin 0) (F.fin 2, F.fin 2) Colour.white) =
    (some (F.fin 2), Colour.green) := by
  have hint : (LineSegment.from_points (F.fin 0, F.fin 2) (F.fin 2, F.fin 0)
        Colour.green).intersects
      (LineSegment.from_points (F.fin 0, F.fin 0) (F.fin 2, F.fin 2) Colour.white) =
      some (F.fin 1, F.fin 1) := by
    rw [LineSegment.intersects]
    norm_num [LineSegment.from_points, LineSegment.find_y, F.fin_div_fin, F.fin_div_fin_zero,
      between]
  have hd : get_distance_sq (F.fin 0, F.fin 0) (F.fin 1, F.fin 1) = F.fin 2 := by
    unfold get_distance_sq
    norm_num
  have hhits : hits (F.fin 0, F.fin 0)
      [LineSegment.from_points (F.fin 0, F.fin 2) (F.fin 2, F.fin 0) Colour.green]
      (LineSegment.from_points (F.fin 0, F.fin 0) (F.fin 2, F.fin 2) Colour.white) =
      [(F.fin 2, Colour.green)] := by
    unfold hits
    rw [List.filterMap_cons, hint]
    simp only [Option.map_some', hd, List.filterMap_nil]
    rfl
  obtain ⟨q, c, heq, hmem, -⟩ :=
    (c3_nearest_hit (F.fin 0, F.fin 0)
      [LineSegment.from_points (F.fin 0, F.fin 2) (F.fin 2, F.fin 0) Colour.green]
      (LineSegment.from_points (F.fin 0, F.fin 0) (F.fin 2, F.fin 2) Colour.white)
      (by rw [hhits]; intro h hm; rw [List.mem_singleton.mp hm]; exact ⟨2, rfl⟩)).2.2
      (by rw [hhits]; simp)
  rw [hhits] at hmem
  have hpair := List.mem_singleton.mp hmem
  rw [Prod.mk.injEq] at hpair
  rw [heq, hpair.1, hpair.2]

end Rhywbeth
